import Mathlib

/-!
Verification of the attribution-modeling and budget-optimization core of the
Campus-Ad-Spend-Efficiency repository (src/scripts/analysis_utils.py and
src/scripts/etl_utils.py), shallowly embedded in Lean 4.

Conventions of the embedding:
* pandas/numpy floats are modelled as exact rationals `ℚ`; where the source can
  produce non-finite floats (division by zero giving `inf`, `-inf` or `NaN`),
  values are modelled by `FVal`, a rational extended with those three points.
  `NaN` is pandas' missing-value marker.
* DataFrames are lists of records; `groupby` is modelled by filtering on the
  (deduplicated) key column.  pandas sorts group keys, which only permutes the
  per-channel rows of the results and affects none of the per-channel facts
  proved here; concrete examples use keys that are already in order.
* `np.exp` in the time-decay model is modelled by an arbitrary strictly
  positive rational-valued function `decay : ℤ → ℚ` (the only property of
  `exp` the source relies on).
-/

/-- A pandas/numpy float value: a finite rational, `inf`, `-inf`, or `NaN`. -/
inductive FVal where
  | fin : ℚ → FVal
  | pinf : FVal
  | ninf : FVal
  | nan : FVal
deriving DecidableEq

/-- Float division `a / b` as numpy performs it on finite operands:
division by zero yields a signed infinity (or `NaN` for `0/0`). -/
def fdiv (a b : ℚ) : FVal :=
  if b = 0 then
    if 0 < a then .pinf else if a < 0 then .ninf else .nan
  else .fin (a / b)

/-- Float reciprocal `1 / x` (used for `cost_efficiency = 1 / cost_per_conversion`). -/
def finv : FVal → FVal
  | .fin q => if q = 0 then .pinf else .fin q⁻¹
  | .pinf => .fin 0
  | .ninf => .fin 0
  | .nan => .nan

/-- Multiplication of a float value by a finite scalar `c`. -/
def fscale (c : ℚ) : FVal → FVal
  | .fin q => .fin (c * q)
  | .pinf => if 0 < c then .pinf else if c < 0 then .ninf else .nan
  | .ninf => if 0 < c then .ninf else if c < 0 then .pinf else .nan
  | .nan => .nan

/-- Float addition with IEEE-style absorption of `NaN` and `inf + -inf = NaN`. -/
def fadd : FVal → FVal → FVal
  | .nan, _ => .nan
  | _, .nan => .nan
  | .pinf, .ninf => .nan
  | .ninf, .pinf => .nan
  | .pinf, _ => .pinf
  | _, .pinf => .pinf
  | .ninf, _ => .ninf
  | _, .ninf => .ninf
  | .fin a, .fin b => .fin (a + b)

/-- The `replace([np.inf, -np.inf], np.nan)` step of the metric aggregator. -/
def freplace : FVal → FVal
  | .pinf => .nan
  | .ninf => .nan
  | x => x

/-- Whether a float value is a (signed) infinity. -/
def isInfB : FVal → Bool
  | .pinf => true
  | .ninf => true
  | _ => false

/-- The finite rational carried by a float value, if any. -/
def toQ : FVal → Option ℚ
  | .fin q => some q
  | _ => none

/-- Sum of a list of float values. -/
def fsum : List FVal → FVal
  | [] => .fin 0
  | x :: xs => fadd x (fsum xs)

/-- A float value lies in the closed unit interval. -/
def inUnit : FVal → Prop
  | .fin q => 0 ≤ q ∧ q ≤ 1
  | _ => False

section ListLemmas

theorem sum_map_div (l : List ℚ) (c : ℚ) :
    (l.map (fun x => x / c)).sum = l.sum / c := by
  induction l with
  | nil => simp
  | cons x xs ih => simp [ih, add_div]

theorem sum_map_mul (l : List ℚ) (c : ℚ) :
    (l.map (fun x => x * c)).sum = l.sum * c := by
  induction l with
  | nil => simp
  | cons x xs ih => simp [ih, add_mul]

theorem sum_map_div_mul (l : List ℚ) (c d : ℚ) :
    (l.map (fun x => x / c * d)).sum = l.sum / c * d := by
  induction l with
  | nil => simp
  | cons x xs ih => simp [ih, add_div, add_mul]

theorem sum_ite_map (l : List ℚ) (p : ℚ → Bool) (c : ℚ) (g : ℚ → ℚ) :
    (l.map (fun x => if p x then c else g x)).sum
      = ((l.filter p).length : ℚ) * c + ((l.filter (fun x => !(p x))).map g).sum := by
  induction l with
  | nil => simp
  | cons x xs ih =>
    by_cases hx : p x
    · simp [hx, ih]
      ring
    · simp [hx, ih]
      ring

theorem sum_pos_of_mem (l : List ℚ) (h0 : ∀ x ∈ l, 0 ≤ x)
    (x : ℚ) (hx : x ∈ l) (hp : 0 < x) : 0 < l.sum := by
  induction l with
  | nil => cases hx
  | cons y ys ih =>
    rcases List.mem_cons.1 hx with h | h
    · subst h
      have : 0 ≤ ys.sum := List.sum_nonneg (fun z hz => h0 z (List.mem_cons_of_mem _ hz))
      simpa using add_pos_of_pos_of_nonneg hp this
    · have hy : 0 ≤ y := h0 y (List.mem_cons_self _ _)
      have := ih (fun z hz => h0 z (List.mem_cons_of_mem _ hz)) h
      simpa using add_pos_of_nonneg_of_pos hy this

theorem sum_pos_of_all_pos (l : List ℚ) (hne : l ≠ []) (h : ∀ x ∈ l, 0 < x) :
    0 < l.sum := by
  cases l with
  | nil => exact absurd rfl hne
  | cons x xs =>
    exact sum_pos_of_mem _ (fun z hz => (h z hz).le) x (List.mem_cons_self _ _)
      (h x (List.mem_cons_self _ _))

theorem sum_lt_length_mul (l : List ℚ) (c : ℚ) (hne : l ≠ [])
    (h : ∀ x ∈ l, x < c) : l.sum < (l.length : ℚ) * c := by
  induction l with
  | nil => exact absurd rfl hne
  | cons x xs ih =>
    cases xs with
    | nil => simpa using h x (List.mem_cons_self _ _)
    | cons y ys =>
      have hx := h x (List.mem_cons_self _ _)
      have htail := ih (by simp) (fun z hz => h z (List.mem_cons_of_mem _ hz))
      have : x + (y :: ys).sum < c + ((y :: ys).length : ℚ) * c :=
        add_lt_add hx htail
      simpa [List.sum_cons, Nat.cast_add, add_mul, one_mul, add_comm] using this

end ListLemmas

/-! ## Budget optimizer (`ChannelAnalyzer.budget_optimization`, analysis_utils.py 102-152)

The optimizer receives the channel-metrics table; only its `efficiency_score`
and `cost` columns are read, so the embedding takes those two columns as lists
(aligned by position, one entry per channel).
-/

/-- Result dictionary of `budget_optimization` (the `reallocation_summary`,
which is a re-presentation of these same columns, is omitted). -/
structure OptResult where
  current_allocation : List ℚ
  optimal_allocation : List ℚ
  allocation_change : List ℚ
  expected_improvement_pct : ℚ
deriving DecidableEq

/-- Line 115: `efficiency_weights = score / score.sum()`. -/
def efficiency_weights_calc (scores : List ℚ) : List ℚ :=
  scores.map (fun s => s / scores.sum)

/-- Line 122: the boolean mask `optimal_allocation < min_budget`, expressed on
the weight `w` of a channel (its naive allocation is `w * B`, and
`min_budget = B * pct`). -/
def below_min (B pct : ℚ) (w : ℚ) : Bool :=
  decide (w * B < B * pct)

/-- Lines 114-134: the naive score-proportional allocation, followed by the
minimum-budget clamp and the single-pass redistribution of the remaining
budget over the unclamped channels. -/
def optimal_allocation_calc (scores : List ℚ) (B pct : ℚ) : List ℚ :=
  if (efficiency_weights_calc scores).any (below_min B pct) then
    if (efficiency_weights_calc scores).any (fun w => !(below_min B pct w)) then
      (efficiency_weights_calc scores).map (fun w =>
        if below_min B pct w then B * pct
        else w / ((efficiency_weights_calc scores).filter (fun v => !(below_min B pct v))).sum
               * (B - (((efficiency_weights_calc scores).filter (below_min B pct)).length : ℚ)
                        * (B * pct)))
    else
      (efficiency_weights_calc scores).map (fun w =>
        if below_min B pct w then B * pct else w * B)
  else
    (efficiency_weights_calc scores).map (fun w => w * B)

/-- Lines 107-112: current spend rescaled proportionally to the total budget. -/
def current_allocation_calc (costs : List ℚ) (B : ℚ) : List ℚ :=
  costs.map (fun c => c / costs.sum * B)

/-- `ChannelAnalyzer.budget_optimization` (lines 102-152). Note line 141
divides the improvement by `current_total`, the sum of the raw `cost` column. -/
def budget_optimization (scores costs : List ℚ) (total_budget min_budget_pct : ℚ) :
    OptResult :=
  let current := current_allocation_calc costs total_budget
  let optimal := optimal_allocation_calc scores total_budget min_budget_pct
  let change := (optimal.zip current).map (fun p => p.1 - p.2)
  { current_allocation := current
    optimal_allocation := optimal
    allocation_change := change
    expected_improvement_pct :=
      ((change.zip scores).map (fun p => p.1 * p.2)).sum / costs.sum * 100 }

/-- Modelled from the spec (section 4.4 step 7, claim C9): the expected
improvement with the denominator `sum(current_i)` taken over the *rescaled*
current allocation, as the spec's step 1 defines `current_i`. -/
def specExpectedImprovementPct (scores costs : List ℚ) (B pct : ℚ) : ℚ :=
  let current := current_allocation_calc costs B
  let optimal := optimal_allocation_calc scores B pct
  let change := (optimal.zip current).map (fun p => p.1 - p.2)
  ((change.zip scores).map (fun p => p.1 * p.2)).sum / current.sum * 100

theorem optimal_allocation_calc_sum (scores : List ℚ) (B pct : ℚ)
    (hnn : ∀ s ∈ scores, 0 ≤ s) (hex : ∃ s ∈ scores, 0 < s) (hB : 0 < B)
    (hfeas : (scores.length : ℚ) * (B * pct) ≤ B) :
    (optimal_allocation_calc scores B pct).sum = B := by
  obtain ⟨s0, hs0mem, hs0pos⟩ := hex
  have hS : 0 < scores.sum := sum_pos_of_mem scores hnn s0 hs0mem hs0pos
  have hSne : scores.sum ≠ 0 := ne_of_gt hS
  unfold optimal_allocation_calc
  set w := efficiency_weights_calc scores with hw
  have hwsum : w.sum = 1 := by
    rw [hw, efficiency_weights_calc, sum_map_div]; exact div_self hSne
  have hwnn : ∀ x ∈ w, 0 ≤ x := by
    intro x hx
    rw [hw, efficiency_weights_calc] at hx
    obtain ⟨s, hs, rfl⟩ := List.mem_map.1 hx
    exact div_nonneg (hnn s hs) hS.le
  have hwlen : w.length = scores.length := by
    rw [hw, efficiency_weights_calc]; exact List.length_map _ _
  by_cases hany : w.any (below_min B pct) = true
  · -- at least one channel is clamped to the minimum budget
    obtain ⟨x0, hx0mem, hx0b⟩ := List.any_eq_true.1 hany
    have hx0lt : x0 * B < B * pct := by
      rw [below_min] at hx0b; exact of_decide_eq_true hx0b
    have hminB : 0 < B * pct :=
      lt_of_le_of_lt (mul_nonneg (hwnn x0 hx0mem) hB.le) hx0lt
    have hnotall : w.any (fun v => !(below_min B pct v)) = true := by
      by_contra hcon
      have hall : ∀ x ∈ w, x * B < B * pct := by
        intro x hx
        by_cases hxb : below_min B pct x = true
        · rw [below_min] at hxb; exact of_decide_eq_true hxb
        · exact absurd (List.any_eq_true.2 ⟨x, hx, by simp [Bool.eq_false_iff.2 hxb]⟩) hcon
      have hwne : w ≠ [] := fun h => by simp [h] at hx0mem
      have h1 : ∀ y ∈ w.map (fun x => x * B), y < B * pct := by
        intro y hy
        obtain ⟨x, hx, rfl⟩ := List.mem_map.1 hy
        exact hall x hx
      have h2 := sum_lt_length_mul (w.map (fun x => x * B)) (B * pct)
        (by simpa using hwne) h1
      rw [sum_map_mul, hwsum, one_mul, List.length_map, hwlen] at h2
      exact absurd (lt_of_lt_of_le h2 hfeas) (lt_irrefl B)
    rw [if_pos hany, if_pos hnotall, sum_ite_map, sum_map_div_mul]
    have hfil_ne : w.filter (fun v => !(below_min B pct v)) ≠ [] := by
      obtain ⟨y, hy, hyb⟩ := List.any_eq_true.1 hnotall
      intro hnil
      have hmem : y ∈ w.filter (fun v => !(below_min B pct v)) :=
        List.mem_filter.2 ⟨hy, hyb⟩
      rw [hnil] at hmem
      cases hmem
    have hfil_pos : ∀ x ∈ w.filter (fun v => !(below_min B pct v)), 0 < x := by
      intro x hx
      obtain ⟨hxw, hxb⟩ := List.mem_filter.1 hx
      have hge : B * pct ≤ x * B := by
        rw [Bool.not_eq_eq_eq_not, Bool.not_true, below_min] at hxb
        exact not_lt.1 (of_decide_eq_false hxb)
      have hxB : 0 < x * B := lt_of_lt_of_le hminB hge
      rcases mul_pos_iff.1 hxB with ⟨h, _⟩ | ⟨_, hBneg⟩
      · exact h
      · exact absurd hB (not_lt.2 hBneg.le)
    have hR : 0 < (w.filter (fun v => !(below_min B pct v))).sum :=
      sum_pos_of_all_pos _ hfil_ne hfil_pos
    rw [div_self (ne_of_gt hR)]
    ring
  · rw [if_neg hany, sum_map_mul, hwsum, one_mul]

/-- C1: for every channel-metrics table whose efficiency scores are nonnegative
with at least one positive, and every positive, feasible total budget
(`n * min_budget <= total_budget`), the optimizer's final optimal allocation
sums exactly to the total budget — covering both the unclamped case and the
case where the minimum-budget clamp and single-pass redistribution fire. -/
theorem c1_optimal_allocation_sums_to_budget (scores costs : List ℚ) (B pct : ℚ)
    (hnn : ∀ s ∈ scores, 0 ≤ s) (hex : ∃ s ∈ scores, 0 < s) (hB : 0 < B)
    (hfeas : (scores.length : ℚ) * (B * pct) ≤ B) :
    (budget_optimization scores costs B pct).optimal_allocation.sum = B := by
  show (optimal_allocation_calc scores B pct).sum = B
  exact optimal_allocation_calc_sum scores B pct hnn hex hB hfeas

/-- Witness for C1 at the spec's own scenario (section 8): scores
[0.2, 0.3, 0.5], costs [100, 200, 300], budget 1000, minimum fraction 0.05. -/
theorem c1_witness :
    (budget_optimization [1/5, 3/10, 1/2] [100, 200, 300] 1000 (1/20)).optimal_allocation.sum
      = 1000 :=
  c1_optimal_allocation_sums_to_budget [1/5, 3/10, 1/2] [100, 200, 300] 1000 (1/20)
    (by intro s hs; fin_cases hs <;> norm_num) ⟨1/5, by simp, by norm_num⟩
    (by norm_num) (by norm_num)

/-- C7 counterexample: for `total_budget = -100` (non-positive) the optimizer
does not fail with `InvalidBudgetError` — no such validation exists in the
source — but returns an ordinary result dictionary (with every channel clamped
to the negative "minimum budget"). -/
theorem c7_negative_budget_returns_result_counterexample :
    budget_optimization [1/2, 1/2] [1, 1] (-100) (1/20)
      = { current_allocation := [-50, -50]
          optimal_allocation := [-5, -5]
          allocation_change := [45, 45]
          expected_improvement_pct := 2250 } := by
  norm_num [budget_optimization, optimal_allocation_calc, current_allocation_calc,
    efficiency_weights_calc, below_min, OptResult.mk.injEq]

/-- C7 amended: the optimizer performs no input validation: neither
`InvalidBudgetError` nor `ConstraintInfeasibleError` exists in the code, and a
non-positive budget silently yields a result — e.g. `total_budget = 0` returns
a zero allocation for every channel. -/
theorem c7_zero_budget_allocates_zero (scores costs : List ℚ) (pct : ℚ)
    (_hS : scores.sum ≠ 0) :
    (budget_optimization scores costs 0 pct).optimal_allocation
      = scores.map (fun _ => (0 : ℚ)) := by
  show optimal_allocation_calc scores 0 pct = _
  simp [optimal_allocation_calc, below_min, efficiency_weights_calc, List.map_map,
    Function.comp_def, List.map_const']

/-- Witness for C7's amended theorem at a concrete two-channel table. -/
theorem c7_witness :
    (budget_optimization [1/2, 1/2] [3, 7] 0 (1/20)).optimal_allocation = [0, 0] :=
  c7_zero_budget_allocates_zero [1/2, 1/2] [3, 7] (1/20) (by norm_num)

/-- C9 counterexample: with costs [100, 100], scores [0.4, 0.6], budget 1000
and minimum fraction 0.05 (no clamping), the source reports an expected
improvement of 10 percent (it divides by `current_total`, the sum of the raw
cost column, line 141), while the spec's formula — dividing by the rescaled
current allocation, which sums to the total budget — gives 2 percent. -/
theorem c9_expected_improvement_denominator_counterexample :
    (budget_optimization [2/5, 3/5] [100, 100] 1000 (1/20)).expected_improvement_pct = 10
      ∧ specExpectedImprovementPct [2/5, 3/5] [100, 100] 1000 (1/20) = 2
      ∧ (10 : ℚ) ≠ 2 := by
  refine ⟨?_, ?_, by norm_num⟩ <;>
    norm_num [budget_optimization, specExpectedImprovementPct, optimal_allocation_calc,
      current_allocation_calc, efficiency_weights_calc, below_min]

/-- C9 amended: the reported expected improvement equals
`sum(change_i * score_i) / sum(cost_i) * 100`, where the denominator is the sum
of the raw current costs — not the rescaled current allocation (whose sum is
the total budget) as the spec's formula reads; stated here for the unclamped
regime with every quantity expanded to the input columns. -/
theorem c9_expected_improvement_formula (scores costs : List ℚ) (B pct : ℚ)
    (hnoclamp : (efficiency_weights_calc scores).any (below_min B pct) = false) :
    (budget_optimization scores costs B pct).expected_improvement_pct
      = (((((scores.map (fun s => s / scores.sum * B)).zip
              (costs.map (fun c => c / costs.sum * B))).map (fun p => p.1 - p.2)).zip
            scores).map (fun p => p.1 * p.2)).sum / costs.sum * 100 := by
  show (((((optimal_allocation_calc scores B pct).zip
            (current_allocation_calc costs B)).map (fun p => p.1 - p.2)).zip
          scores).map (fun p => p.1 * p.2)).sum / costs.sum * 100 = _
  simp only [optimal_allocation_calc]
  rw [hnoclamp]
  simp only [Bool.false_eq_true, if_false, efficiency_weights_calc,
    current_allocation_calc, List.map_map, Function.comp_def]

/-- Witness for C9's amended theorem at the counterexample's input. -/
theorem c9_witness :
    (budget_optimization [2/5, 3/5] [100, 100] 1000 (1/20)).expected_improvement_pct
      = ((((([2/5, 3/5].map (fun s => s / [2/5, 3/5].sum * 1000)).zip
              ([100, 100].map (fun c => c / [100, 100].sum * 1000))).map
             (fun p => p.1 - p.2)).zip [2/5, 3/5]).map (fun p => p.1 * p.2)).sum
          / [100, 100].sum * 100 :=
  c9_expected_improvement_formula [2/5, 3/5] [100, 100] 1000 (1/20)
    (by norm_num [efficiency_weights_calc, below_min])

/-! ## Attribution engine (`ChannelAnalyzer` attribution models, analysis_utils.py 206-251)

A journey-table row: user id, channel, touchpoint timestamp (in days),
optional conversion timestamp (in days; `none` models a NaT
`conversion_timestamp`) and the designated value column.  For the models that
only *sum* the value column (linear, time-decay), pandas' missing values
contribute 0, so `ARow` takes the value column total; the first-touch model
goes through `groupby.first()`, which is sensitive to nulls (it takes the
first NON-null entry of each column within the group), so its row type
`FRow` keeps the value column nullable.
-/

/-- One row of the user-journey table. -/
structure ARow where
  user : ℕ
  channel : ℕ
  t : ℤ
  conv : Option ℤ
  value : ℚ
deriving DecidableEq

/-- Distinct channels of a journey table, as `groupby('channel')` keys. -/
def aChannels (df : List ARow) : List ℕ :=
  (df.map (fun r => r.channel)).dedup

/-- The final `groupby('channel')[...].sum()` of the value-summing models. -/
def groupSumByChannel (l : List ARow) : List (ℕ × ℚ) :=
  (aChannels l).map (fun c =>
    (c, ((l.filter (fun r => r.channel == c)).map (fun r => r.value)).sum))

/-- One row of the journey table as `_first_touch_attribution` reads it: the
designated value column is nullable (NaN on non-converting rows of the
repository's journey tables), because `groupby.first()` treats nulls
specially, unlike the plain sums of the other models. -/
structure FRow where
  user : ℕ
  channel : ℕ
  t : ℤ
  value : Option ℚ
deriving DecidableEq

/-- Distinct users of a journey table, as `groupby('user_id')` keys. -/
def fUsers (df : List FRow) : List ℕ :=
  (df.map (fun r => r.user)).dedup

/-- pandas `groupby('user_id').first()` on one user's group, in table order:
for each column independently, the FIRST NON-NULL entry — so the first row's
channel (channels are never null) is paired with the group's first non-null
value, which need not come from the same row. -/
def groupFirst : List FRow → Option (ℕ × Option ℚ)
  | [] => none
  | r :: rs => some (r.channel, ((r :: rs).filterMap (fun x => x.value)).head?)

/-- The `groupby('channel').agg({value_col: 'sum'})` over the per-user first
entries (pandas `sum` skips nulls). -/
def sumByChannelPairs (l : List (ℕ × Option ℚ)) : List (ℕ × ℚ) :=
  ((l.map (fun p => p.1)).dedup).map (fun c =>
    (c, ((l.filter (fun p => p.1 == c)).filterMap (fun p => p.2)).sum))

/-- `ChannelAnalyzer._first_touch_attribution` (lines 210-214):
`df.groupby('user_id').first()` followed by a by-channel sum of the value
column.  The source comments "Assuming user journey is sorted by timestamp";
nothing sorts the table, and `first()` pairs each user's first channel (in
table order) with that user's first non-null value (in table order). -/
def first_touch_attribution (df : List FRow) : List (ℕ × ℚ) :=
  sumByChannelPairs
    ((fUsers df).filterMap (fun u => groupFirst (df.filter (fun r => r.user == u))))

/-- The earliest-timestamp row of a list (first one wins ties). -/
def chronFirst : List FRow → Option FRow
  | [] => none
  | r :: rs => some (rs.foldl (fun best x => if x.t < best.t then x else best) r)

/-- Modelled from the spec: first-touch attribution that selects, for each
user, that user's chronologically first touchpoint row regardless of table
order, and sums that row's OWN value (zero when null) by that row's
channel, all later touchpoints receiving zero attribution. -/
def first_touch_chronological (df : List FRow) : List (ℕ × ℚ) :=
  sumByChannelPairs
    ((fUsers df).filterMap (fun u =>
      (chronFirst (df.filter (fun r => r.user == u))).map
        (fun r => (r.channel, r.value))))

/-- `ChannelAnalyzer._linear_attribution` (lines 216-224): each row's own
value is divided by the count of that user's touchpoints, then summed by
channel. -/
def linear_attribution (df : List ARow) : List (ℕ × ℚ) :=
  groupSumByChannel (df.map (fun r =>
    { r with value := r.value / (((df.filter (fun r2 => r2.user == r.user)).length : ℚ)) }))

/-- Maximum of a list of integers (`Series.max()` over the non-null
conversion timestamps); `none` when every entry is null. -/
def omax : List ℤ → Option ℤ
  | [] => none
  | z :: zs => some (zs.foldl max z)

/-- The inner `calculate_time_weights` of
`ChannelAnalyzer._time_decay_attribution` (lines 230-246), applied to one
user's group of rows.  `decay d` stands for `np.exp(-d / decay_rate)`; when
the group has several rows and no conversion timestamp, the source's
`max()` is NaT and every weight becomes NaN. -/
def calculate_time_weights (decay : ℤ → ℚ) (g : List ARow) : List FVal :=
  if g.length = 1 then [FVal.fin 1]
  else
    match omax (g.filterMap (fun r => r.conv)) with
    | none => g.map (fun _ => FVal.nan)
    | some m =>
      let raw := g.map (fun r => decay (m - r.t))
      raw.map (fun x => FVal.fin (x / raw.sum))

theorem foldl_earliest (rs : List FRow) (r : FRow)
    (h : ∀ x ∈ rs, ¬ x.t < r.t) :
    rs.foldl (fun best x => if x.t < best.t then x else best) r = r := by
  induction rs with
  | nil => rfl
  | cons x xs ih =>
    have hx := h x (List.mem_cons_self _ _)
    simp only [List.foldl_cons, if_neg hx]
    exact ih (fun y hy => h y (List.mem_cons_of_mem _ hy))

theorem chronFirst_of_sorted (l : List FRow)
    (h : (l.map (fun r => r.t)).Pairwise (· < ·)) :
    chronFirst l = l.head? := by
  cases l with
  | nil => rfl
  | cons r rs =>
    have h1 : ∀ x ∈ rs, ¬ x.t < r.t := by
      have h2 : (∀ a ∈ rs, r.t < a.t) ∧
          List.Pairwise (fun x1 x2 => x1 < x2) (rs.map (fun r => r.t)) := by
        simpa using h
      intro x hx
      exact lt_asymm (h2.1 x hx)
    simp [chronFirst, foldl_earliest rs r h1]

theorem mem_fUsers_filter_ne_nil (df : List FRow) (u : ℕ) (hu : u ∈ fUsers df) :
    df.filter (fun r => r.user == u) ≠ [] := by
  rw [fUsers, List.mem_dedup] at hu
  obtain ⟨r, hr, hru⟩ := List.mem_map.1 hu
  intro h0
  have hmem : r ∈ df.filter (fun r2 => r2.user == u) :=
    List.mem_filter.2 ⟨hr, by simp [hru]⟩
  rw [h0] at hmem
  cases hmem

/-- C2: the linear model does not conserve a user's total value. For a user
with two touchpoints carrying values 0 and 100, the source attributes
`0/2 = 0` and `100/2 = 50` (each row's own value divided by the touchpoint
count), so the user's attributed total is 50 while the user's total value in
the value column is 100 — half the value vanishes, contradicting the
"equal weight to all touchpoints" docstring and the spec's conservation
property. -/
theorem c2_linear_attribution_loses_value :
    linear_attribution [⟨1, 1, 0, none, 0⟩, ⟨1, 2, 1, none, 100⟩] = [(1, 0), (2, 50)]
    ∧ (([⟨1, 1, 0, none, 0⟩, ⟨1, 2, 1, none, 100⟩] : List ARow).map (fun r => r.value)).sum
        = 100
    ∧ ((0 : ℚ) + 50 ≠ 100) := by
  refine ⟨?_, by norm_num, by norm_num⟩
  norm_num [linear_attribution, groupSumByChannel, aChannels, List.dedup_cons_of_mem,
    List.dedup_cons_of_not_mem, List.filter_cons, List.filter_nil]

/-- C3 counterexample, refuting the claim in two independent ways.
Row order: with user 1's touchpoints listed later-first (channel 2 at time 5
before channel 1 at time 3, both worth 100), the code attributes the 100 to
channel 2 — the chronologically later touchpoint's channel.  Null skipping:
even on a chronologically sorted table where the first touchpoint (channel 1,
time 3) has a null value and a later touchpoint (channel 2, time 5) is worth
100, `first()` pairs channel 1 with the later touchpoint's 100, so the later
touchpoint does not receive zero attribution; the chronological selection of
the spec attributes 0. -/
theorem c3_first_touch_table_order_counterexample :
    first_touch_attribution [⟨1, 2, 5, some 100⟩, ⟨1, 1, 3, some 100⟩] = [(2, 100)]
    ∧ first_touch_chronological [⟨1, 2, 5, some 100⟩, ⟨1, 1, 3, some 100⟩] = [(1, 100)]
    ∧ first_touch_attribution [⟨1, 1, 3, none⟩, ⟨1, 2, 5, some 100⟩] = [(1, 100)]
    ∧ first_touch_chronological [⟨1, 1, 3, none⟩, ⟨1, 2, 5, some 100⟩] = [(1, 0)]
    ∧ ([((2 : ℕ), (100 : ℚ))] ≠ [((1 : ℕ), (100 : ℚ))])
    ∧ ([((1 : ℕ), (100 : ℚ))] ≠ [((1 : ℕ), (0 : ℚ))]) := by
  refine ⟨?_, ?_, ?_, ?_, by simp, by simp⟩ <;>
    norm_num [first_touch_attribution, first_touch_chronological, sumByChannelPairs,
      fUsers, groupFirst, chronFirst, List.dedup_cons_of_mem, List.dedup_cons_of_not_mem,
      List.filter_cons, List.filter_nil, List.filterMap_cons]

/-- C3 amended: `groupby('user_id').first()` takes, per user and per column
independently, the first non-null entry in table order.  Provided each user's
rows appear in the table in chronological order (the code's documented
assumption) and each user's first touchpoint carries a non-null value,
first-touch attribution selects that user's chronologically first touchpoint
row and sums its value by that touchpoint's channel, later touchpoints
receiving zero.  For unsorted tables the first row in table order is used
instead, and when a user's first row has a null value the first non-null
value of a later touchpoint is attributed to the first row's channel. -/
theorem c3_first_touch_sorted_equals_chronological (df : List FRow)
    (hsort : ∀ u ∈ fUsers df,
      ((df.filter (fun r => r.user == u)).map (fun r => r.t)).Pairwise (· < ·))
    (hval : ∀ u ∈ fUsers df,
      ((df.filter (fun r => r.user == u)).head?.all (fun r => r.value.isSome)) = true) :
    first_touch_attribution df = first_touch_chronological df := by
  unfold first_touch_attribution first_touch_chronological
  congr 1
  apply List.filterMap_congr
  intro u hu
  have hne := mem_fUsers_filter_ne_nil df u hu
  have hs := hsort u hu
  have hv := hval u hu
  cases hg : df.filter (fun r => r.user == u) with
  | nil => exact absurd hg hne
  | cons r0 rs =>
    rw [hg] at hs hv
    rw [chronFirst_of_sorted _ hs]
    have hv2 : r0.value.isSome = true := by simpa using hv
    obtain ⟨v, hvv⟩ := Option.isSome_iff_exists.1 hv2
    simp [groupFirst, List.filterMap_cons, hvv]

/-- Witness for C3's amended theorem on a chronologically sorted table whose
first touchpoints carry non-null values. -/
theorem c3_witness :
    first_touch_attribution [⟨1, 1, 3, some 100⟩, ⟨1, 2, 5, some 100⟩]
      = first_touch_chronological [⟨1, 1, 3, some 100⟩, ⟨1, 2, 5, some 100⟩] :=
  c3_first_touch_sorted_equals_chronological _ (by decide) (by decide)

theorem fsum_map_fin (l : List ℚ) (f : ℚ → ℚ) :
    fsum (l.map (fun x => FVal.fin (f x))) = FVal.fin ((l.map f).sum) := by
  induction l with
  | nil => rfl
  | cons x xs ih => simp [fsum, ih, fadd]

/-- C5 counterexample: a user with two touchpoints and no conversion
timestamp (both `conversion_timestamp` entries NaT) receives NaN time-decay
weights — the source takes `max()` of an all-null column — so that user's
weights sum to NaN, not 1.0. -/
theorem c5_no_conversion_nan_counterexample :
    calculate_time_weights (fun _ => 1) [⟨1, 1, 0, none, 0⟩, ⟨1, 2, 1, none, 0⟩]
      = [FVal.nan, FVal.nan]
    ∧ fsum [FVal.nan, FVal.nan] = FVal.nan
    ∧ FVal.nan ≠ FVal.fin 1 := by
  refine ⟨?_, by simp [fsum, fadd], by simp⟩
  simp [calculate_time_weights, omax, List.filterMap_cons]

/-- C5 amended: for every user whose group has a single touchpoint or at
least one non-null conversion timestamp, the time-decay weights sum to
exactly 1 (the normalized positive decay weights telescope), and a
single-touchpoint user receives exactly the weight 1.0; a multi-touchpoint
user with no conversion timestamp instead receives NaN weights. -/
theorem c5_time_decay_weights_sum_to_one (decay : ℤ → ℚ) (g : List ARow)
    (hpos : ∀ z, 0 < decay z) (hne : g ≠ [])
    (hok : g.length = 1 ∨ g.filterMap (fun r => r.conv) ≠ []) :
    fsum (calculate_time_weights decay g) = FVal.fin 1
      ∧ (g.length = 1 → calculate_time_weights decay g = [FVal.fin 1]) := by
  by_cases hlen : g.length = 1
  · exact ⟨by simp [calculate_time_weights, hlen, fsum, fadd],
      fun _ => by simp [calculate_time_weights, hlen]⟩
  · have hconv : g.filterMap (fun r => r.conv) ≠ [] := by
      rcases hok with h | h
      · exact absurd h hlen
      · exact h
    obtain ⟨m, hm⟩ : ∃ m, omax (g.filterMap (fun r => r.conv)) = some m := by
      cases hcv : g.filterMap (fun r => r.conv) with
      | nil => exact absurd hcv hconv
      | cons z zs => exact ⟨zs.foldl max z, by rw [omax]⟩
    refine ⟨?_, fun h1 => absurd h1 hlen⟩
    have hraw_ne : g.map (fun r => decay (m - r.t)) ≠ [] := by
      cases g with
      | nil => exact absurd rfl hne
      | cons r rs => simp
    have hraw_pos : ∀ x ∈ g.map (fun r => decay (m - r.t)), 0 < x := by
      intro x hx
      obtain ⟨r, _, rfl⟩ := List.mem_map.1 hx
      exact hpos _
    have hsum : 0 < (g.map (fun r => decay (m - r.t))).sum :=
      sum_pos_of_all_pos _ hraw_ne hraw_pos
    simp only [calculate_time_weights, hlen, if_false, hm]
    rw [fsum_map_fin, sum_map_div, div_self (ne_of_gt hsum)]

/-- Witness for C5's amended theorem: a two-touchpoint converting user under
a concrete positive decay function. -/
theorem c5_witness :
    fsum (calculate_time_weights (fun _ => 1)
      [⟨1, 1, 0, some 2, 10⟩, ⟨1, 2, 1, some 2, 10⟩]) = FVal.fin 1 :=
  (c5_time_decay_weights_sum_to_one (fun _ => 1) _
    (fun z => by norm_num) (by simp)
    (Or.inr (by simp [List.filterMap_cons]))).1

/-! ## Efficiency scorer (`ChannelAnalyzer.calculate_efficiency_scores`, analysis_utils.py 58-100)

The scorer's input table has one row per observation with a channel key and
numeric columns `cost`, `revenue`, `conversions`, `clicks`, `impressions`;
the `agg` of lines 63-70 sums the first four and *counts* the `impressions`
column (pandas `count` of a non-null column is the group's row count).
`MinMaxScaler` accepts NaN entries (ignored when fitting, preserved in the
output) but raises on infinite entries or an empty table, modelled by the
`Option` result.
-/

/-- One row of the scorer's input table. -/
structure SRow where
  channel : ℕ
  cost : ℚ
  revenue : ℚ
  conversions : ℚ
  clicks : ℚ
  impressions : ℚ
deriving DecidableEq

/-- One row of the grouped table of lines 63-70. -/
structure AggRow where
  channel : ℕ
  cost : ℚ
  revenue : ℚ
  conversions : ℚ
  clicks : ℚ
  impressions : ℚ
deriving DecidableEq

/-- Group keys of `df.groupby('channel')`. -/
def channelKeys (df : List SRow) : List ℕ :=
  (df.map (fun r => r.channel)).dedup

/-- The aggregate row of one channel: sums of cost, revenue, conversions and
clicks, and the row count for `'impressions': 'count'`. -/
def aggOne (df : List SRow) (c : ℕ) : AggRow :=
  { channel := c
    cost := ((df.filter (fun r => r.channel == c)).map (fun r => r.cost)).sum
    revenue := ((df.filter (fun r => r.channel == c)).map (fun r => r.revenue)).sum
    conversions := ((df.filter (fun r => r.channel == c)).map (fun r => r.conversions)).sum
    clicks := ((df.filter (fun r => r.channel == c)).map (fun r => r.clicks)).sum
    impressions := ((df.filter (fun r => r.channel == c)).length : ℚ) }

/-- The grouped `channel_metrics` table of lines 63-70. -/
def aggCE (df : List SRow) : List AggRow :=
  (channelKeys df).map (aggOne df)

/-- Column `roas = revenue / cost` (line 73). -/
def roasCol (df : List SRow) : List FVal :=
  (aggCE df).map (fun a => fdiv a.revenue a.cost)

/-- Column `cost_per_conversion = cost / conversions` (line 74). -/
def cost_per_conversionCol (df : List SRow) : List FVal :=
  (aggCE df).map (fun a => fdiv a.cost a.conversions)

/-- Column `conversion_rate = conversions / clicks` (line 75). -/
def conversion_rateCol (df : List SRow) : List FVal :=
  (aggCE df).map (fun a => fdiv a.conversions a.clicks)

/-- Column `ctr = clicks / impressions` (line 76). -/
def ctrCol (df : List SRow) : List FVal :=
  (aggCE df).map (fun a => fdiv a.clicks a.impressions)

/-- Column `cost_efficiency = 1 / cost_per_conversion` (line 82). -/
def cost_efficiencyCol (df : List SRow) : List FVal :=
  (cost_per_conversionCol df).map finv

/-- The four columns handed to `MinMaxScaler` (line 85). -/
def scoringCols (df : List SRow) : List FVal :=
  roasCol df ++ cost_efficiencyCol df ++ conversion_rateCol df ++ ctrCol df

/-- The finite entries of a column (`MinMaxScaler` ignores NaN when fitting). -/
def finVals (xs : List FVal) : List ℚ :=
  xs.filterMap toQ

/-- Minimum of a rational column (0 on an empty column, never consulted then). -/
def qmin : List ℚ → ℚ
  | [] => 0
  | q :: qs => qs.foldl min q

/-- Maximum of a rational column (0 on an empty column, never consulted then). -/
def qmax : List ℚ → ℚ
  | [] => 0
  | q :: qs => qs.foldl max q

/-- Min-max normalization of one value against its column, as `MinMaxScaler`
computes it: `(x - min) / (max - min)`, with a zero range replaced by 1 by
`_handle_zeros_in_scale`, which sends every value of a constant column to 0;
NaN entries pass through as NaN. -/
def nrm (xs : List FVal) : FVal → FVal
  | .fin q =>
      if qmax (finVals xs) = qmin (finVals xs) then .fin 0
      else .fin ((q - qmin (finVals xs)) / (qmax (finVals xs) - qmin (finVals xs)))
  | _ => .nan

/-- The fixed scoring weights of line 95 (roas, cost_efficiency,
conversion_rate, ctr). -/
def scoringWeights : List ℚ := [2/5, 3/10, 1/5, 1/10]

/-- One row of the internal `normalized_scores` frame (lines 88-98): the four
normalized components and the composite `efficiency_score`. -/
structure NRow where
  channel : ℕ
  nRoas : FVal
  nCostEff : FVal
  nConvRate : FVal
  nCtr : FVal
  effScore : FVal
deriving DecidableEq

/-- The `normalized_scores` frame of lines 88-98. `MinMaxScaler.fit_transform`
raises a `ValueError` on an empty table or on any infinite entry (`none`
here); NaN entries are allowed and preserved. -/
def normalized_scores (df : List SRow) : Option (List NRow) :=
  if (aggCE df).isEmpty then none
  else if (scoringCols df).any isInfB then none
  else some ((aggCE df).map (fun a =>
    let nR := nrm (roasCol df) (fdiv a.revenue a.cost)
    let nCE := nrm (cost_efficiencyCol df) (finv (fdiv a.cost a.conversions))
    let nCR := nrm (conversion_rateCol df) (fdiv a.conversions a.clicks)
    let nT := nrm (ctrCol df) (fdiv a.clicks a.impressions)
    { channel := a.channel
      nRoas := nR
      nCostEff := nCE
      nConvRate := nCR
      nCtr := nT
      effScore := fadd (fscale (2/5) nR)
        (fadd (fscale (3/10) nCE) (fadd (fscale (1/5) nCR) (fscale (1/10) nT))) }))

/-- One row of the scorer's returned table (line 100): the grouped metrics,
the derived ratio columns, and the joined `efficiency_score`. -/
structure ScoreRow where
  channel : ℕ
  cost : ℚ
  revenue : ℚ
  conversions : ℚ
  clicks : ℚ
  impressions : ℚ
  roas : FVal
  cost_per_conversion : FVal
  conversion_rate : FVal
  ctr : FVal
  cost_efficiency : FVal
  efficiency_score : FVal
deriving DecidableEq

/-- `ChannelAnalyzer.calculate_efficiency_scores` (lines 58-100). -/
def calculate_efficiency_scores (df : List SRow) : Option (List ScoreRow) :=
  match normalized_scores df with
  | none => none
  | some ns =>
    some (((aggCE df).zip ns).map (fun p =>
      { channel := p.1.channel
        cost := p.1.cost
        revenue := p.1.revenue
        conversions := p.1.conversions
        clicks := p.1.clicks
        impressions := p.1.impressions
        roas := fdiv p.1.revenue p.1.cost
        cost_per_conversion := fdiv p.1.cost p.1.conversions
        conversion_rate := fdiv p.1.conversions p.1.clicks
        ctr := fdiv p.1.clicks p.1.impressions
        cost_efficiency := finv (fdiv p.1.cost p.1.conversions)
        efficiency_score := p.2.effScore }))

theorem foldl_min_le_init (l : List ℚ) (a : ℚ) : l.foldl min a ≤ a := by
  induction l generalizing a with
  | nil => exact le_refl a
  | cons x xs ih => exact le_trans (ih (min a x)) (min_le_left a x)

theorem foldl_min_le_mem (l : List ℚ) (x : ℚ) (hx : x ∈ l) :
    ∀ a, l.foldl min a ≤ x := by
  induction l with
  | nil => cases hx
  | cons y ys ih =>
    intro a
    rcases List.mem_cons.1 hx with h | h
    · subst h
      exact le_trans (foldl_min_le_init ys (min a x)) (min_le_right a x)
    · exact ih h (min a y)

theorem foldl_max_ge_init (l : List ℚ) (a : ℚ) : a ≤ l.foldl max a := by
  induction l generalizing a with
  | nil => exact le_refl a
  | cons x xs ih => exact le_trans (le_max_left a x) (ih (max a x))

theorem foldl_max_ge_mem (l : List ℚ) (x : ℚ) (hx : x ∈ l) :
    ∀ a, x ≤ l.foldl max a := by
  induction l with
  | nil => cases hx
  | cons y ys ih =>
    intro a
    rcases List.mem_cons.1 hx with h | h
    · subst h
      exact le_trans (le_max_right a x) (foldl_max_ge_init ys (max a x))
    · exact ih h (max a y)

theorem qmin_le_mem (l : List ℚ) (x : ℚ) (hx : x ∈ l) : qmin l ≤ x := by
  cases l with
  | nil => cases hx
  | cons q qs =>
    rcases List.mem_cons.1 hx with h | h
    · subst h
      exact foldl_min_le_init qs x
    · exact foldl_min_le_mem qs x h q

theorem qmax_ge_mem (l : List ℚ) (x : ℚ) (hx : x ∈ l) : x ≤ qmax l := by
  cases l with
  | nil => cases hx
  | cons q qs =>
    rcases List.mem_cons.1 hx with h | h
    · subst h
      exact foldl_max_ge_init qs x
    · exact foldl_max_ge_mem qs x h q

theorem foldl_min_const (l : List ℚ) (q : ℚ) (h : ∀ p ∈ l, p = q) :
    l.foldl min q = q := by
  induction l with
  | nil => rfl
  | cons x xs ih =>
    have hx := h x (List.mem_cons_self _ _)
    simp only [List.foldl_cons, hx, min_self]
    exact ih (fun p hp => h p (List.mem_cons_of_mem _ hp))

theorem foldl_max_const (l : List ℚ) (q : ℚ) (h : ∀ p ∈ l, p = q) :
    l.foldl max q = q := by
  induction l with
  | nil => rfl
  | cons x xs ih =>
    have hx := h x (List.mem_cons_self _ _)
    simp only [List.foldl_cons, hx, max_self]
    exact ih (fun p hp => h p (List.mem_cons_of_mem _ hp))

theorem qmin_eq_const (l : List ℚ) (q : ℚ) (hne : l ≠ []) (h : ∀ p ∈ l, p = q) :
    qmin l = q := by
  cases l with
  | nil => exact absurd rfl hne
  | cons x xs =>
    have hx := h x (List.mem_cons_self _ _)
    subst hx
    exact foldl_min_const xs x (fun p hp => h p (List.mem_cons_of_mem _ hp))

theorem qmax_eq_const (l : List ℚ) (q : ℚ) (hne : l ≠ []) (h : ∀ p ∈ l, p = q) :
    qmax l = q := by
  cases l with
  | nil => exact absurd rfl hne
  | cons x xs =>
    have hx := h x (List.mem_cons_self _ _)
    subst hx
    exact foldl_max_const xs x (fun p hp => h p (List.mem_cons_of_mem _ hp))

/-- A column whose entries are all equal (the spec's "no variance" case). -/
def constCol (xs : List FVal) : Prop :=
  ∀ x ∈ xs, ∀ y ∈ xs, x = y

theorem fdiv_fin (a b : ℚ) (hb : b ≠ 0) : fdiv a b = FVal.fin (a / b) := by
  simp [fdiv, hb]

theorem nrm_bounds (xs : List FVal) (q : ℚ) (hmem : FVal.fin q ∈ xs) :
    ∃ p, nrm xs (FVal.fin q) = FVal.fin p ∧ 0 ≤ p ∧ p ≤ 1 := by
  have hq : q ∈ finVals xs := List.mem_filterMap.2 ⟨FVal.fin q, hmem, rfl⟩
  have hmin : qmin (finVals xs) ≤ q := qmin_le_mem _ _ hq
  have hmax : q ≤ qmax (finVals xs) := qmax_ge_mem _ _ hq
  by_cases h : qmax (finVals xs) = qmin (finVals xs)
  · exact ⟨0, by simp [nrm, h], le_refl 0, by norm_num⟩
  · have hlt : qmin (finVals xs) < qmax (finVals xs) :=
      lt_of_le_of_ne (le_trans hmin hmax) (Ne.symm h)
    refine ⟨(q - qmin (finVals xs)) / (qmax (finVals xs) - qmin (finVals xs)),
      by simp [nrm, h], div_nonneg (by linarith) (by linarith), ?_⟩
    rw [div_le_one (by linarith)]
    linarith

theorem nrm_const (xs : List FVal) (q : ℚ) (hmem : FVal.fin q ∈ xs)
    (hconst : constCol xs) :
    nrm xs (FVal.fin q) = FVal.fin 0 := by
  have hq : q ∈ finVals xs := List.mem_filterMap.2 ⟨FVal.fin q, hmem, rfl⟩
  have hall : ∀ p ∈ finVals xs, p = q := by
    intro p hp
    obtain ⟨y, hy, hyq⟩ := List.mem_filterMap.1 hp
    have hyfin : y = FVal.fin q := hconst y hy (FVal.fin q) hmem
    rw [hyfin] at hyq
    exact (Option.some.inj hyq).symm
  have hne : finVals xs ≠ [] := fun h0 => by rw [h0] at hq; cases hq
  simp [nrm, qmin_eq_const _ q hne hall, qmax_eq_const _ q hne hall]

theorem nrm_inUnit_and_const (xs : List FVal) (q : ℚ) (hmem : FVal.fin q ∈ xs) :
    inUnit (nrm xs (FVal.fin q)) ∧ (constCol xs → nrm xs (FVal.fin q) = FVal.fin 0) := by
  constructor
  · obtain ⟨p, hp, h0, h1⟩ := nrm_bounds xs q hmem
    rw [hp]
    exact ⟨h0, h1⟩
  · exact fun hc => nrm_const xs q hmem hc

theorem aggCE_ne_nil (df : List SRow) (hne : df ≠ []) : aggCE df ≠ [] := by
  cases df with
  | nil => exact absurd rfl hne
  | cons r rs =>
    have hmem : r.channel ∈ channelKeys (r :: rs) := by
      simp [channelKeys, List.mem_dedup]
    intro h0
    rw [aggCE, List.map_eq_nil_iff] at h0
    rw [h0] at hmem
    cases hmem

/-- C4 counterexample: two channels with identical metrics make every scoring
column constant; `MinMaxScaler` (via `_handle_zeros_in_scale`) then maps every
value to 0, not to the 0.5 the claim requires. -/
theorem c4_constant_metric_normalizes_to_zero_counterexample :
    (normalized_scores [⟨1, 1, 2, 1, 1, 1⟩, ⟨2, 1, 2, 1, 1, 1⟩]).map
        (fun rows => rows.map (fun r => r.nRoas))
      = some [FVal.fin 0, FVal.fin 0]
    ∧ FVal.fin 0 ≠ FVal.fin (1/2) := by
  constructor
  · norm_num [normalized_scores, aggCE, aggOne, channelKeys, scoringCols, roasCol,
      cost_per_conversionCol, conversion_rateCol, ctrCol, cost_efficiencyCol, nrm,
      finVals, qmin, qmax, fdiv, finv, toQ, isInfB, List.filter_cons, List.filter_nil,
      List.filterMap_cons, List.dedup_cons_of_mem, List.dedup_cons_of_not_mem]
  · simp

/-- C4 amended: for every scored channel set whose per-channel aggregates have
positive cost, conversions, clicks and impressions (so the four scoring
metrics are finite), each of the four normalized component metrics lies in
[0, 1]; and if a component metric is constant across all channels, every
channel receives 0 for that metric (sklearn's zero-range behaviour), not
0.5. -/
theorem c4_normalized_components_bounds (df : List SRow) (hne : df ≠ [])
    (hpos : ∀ a ∈ aggCE df,
      0 < a.cost ∧ 0 < a.conversions ∧ 0 < a.clicks ∧ 0 < a.impressions) :
    ∃ rows, normalized_scores df = some rows ∧
      ∀ r ∈ rows,
        (inUnit r.nRoas ∧ inUnit r.nCostEff ∧ inUnit r.nConvRate ∧ inUnit r.nCtr)
        ∧ (constCol (roasCol df) → r.nRoas = FVal.fin 0)
        ∧ (constCol (cost_efficiencyCol df) → r.nCostEff = FVal.fin 0)
        ∧ (constCol (conversion_rateCol df) → r.nConvRate = FVal.fin 0)
        ∧ (constCol (ctrCol df) → r.nCtr = FVal.fin 0) := by
  have hagg : aggCE df ≠ [] := aggCE_ne_nil df hne
  have hfinR : ∀ a ∈ aggCE df, fdiv a.revenue a.cost = FVal.fin (a.revenue / a.cost) :=
    fun a ha => fdiv_fin _ _ (ne_of_gt (hpos a ha).1)
  have hfinCE : ∀ a ∈ aggCE df,
      finv (fdiv a.cost a.conversions) = FVal.fin (a.cost / a.conversions)⁻¹ := by
    intro a ha
    obtain ⟨hc, hv, _, _⟩ := hpos a ha
    rw [fdiv_fin _ _ (ne_of_gt hv)]
    simp only [finv]
    rw [if_neg (ne_of_gt (div_pos hc hv))]
  have hfinCR : ∀ a ∈ aggCE df,
      fdiv a.conversions a.clicks = FVal.fin (a.conversions / a.clicks) :=
    fun a ha => fdiv_fin _ _ (ne_of_gt (hpos a ha).2.2.1)
  have hfinT : ∀ a ∈ aggCE df,
      fdiv a.clicks a.impressions = FVal.fin (a.clicks / a.impressions) :=
    fun a ha => fdiv_fin _ _ (ne_of_gt (hpos a ha).2.2.2)
  have hnoinf : (scoringCols df).any isInfB = false := by
    rw [List.any_eq_false]
    intro x hx
    rw [scoringCols] at hx
    rcases List.mem_append.1 hx with hx | hx
    · rcases List.mem_append.1 hx with hx | hx
      · rcases List.mem_append.1 hx with hx | hx
        · obtain ⟨a, ha, rfl⟩ := List.mem_map.1 hx
          rw [hfinR a ha]
          simp [isInfB]
        · obtain ⟨y, hy, rfl⟩ := List.mem_map.1 hx
          obtain ⟨a, ha, rfl⟩ := List.mem_map.1 hy
          rw [hfinCE a ha]
          simp [isInfB]
      · obtain ⟨a, ha, rfl⟩ := List.mem_map.1 hx
        rw [hfinCR a ha]
        simp [isInfB]
    · obtain ⟨a, ha, rfl⟩ := List.mem_map.1 hx
      rw [hfinT a ha]
      simp [isInfB]
  rw [normalized_scores, if_neg (by simp [List.isEmpty_iff, hagg]),
    if_neg (by simp [hnoinf])]
  refine ⟨_, rfl, ?_⟩
  intro r hr
  obtain ⟨a, ha, rfl⟩ := List.mem_map.1 hr
  have hmemR : FVal.fin (a.revenue / a.cost) ∈ roasCol df := by
    rw [← hfinR a ha]
    exact List.mem_map_of_mem _ ha
  have hmemCE : FVal.fin (a.cost / a.conversions)⁻¹ ∈ cost_efficiencyCol df := by
    rw [← hfinCE a ha]
    exact List.mem_map_of_mem finv (List.mem_map_of_mem _ ha)
  have hmemCR : FVal.fin (a.conversions / a.clicks) ∈ conversion_rateCol df := by
    rw [← hfinCR a ha]
    exact List.mem_map_of_mem _ ha
  have hmemT : FVal.fin (a.clicks / a.impressions) ∈ ctrCol df := by
    rw [← hfinT a ha]
    exact List.mem_map_of_mem _ ha
  have hR := nrm_inUnit_and_const (roasCol df) _ hmemR
  have hCE := nrm_inUnit_and_const (cost_efficiencyCol df) _ hmemCE
  have hCR := nrm_inUnit_and_const (conversion_rateCol df) _ hmemCR
  have hT := nrm_inUnit_and_const (ctrCol df) _ hmemT
  refine ⟨⟨?_, ?_, ?_, ?_⟩, ?_, ?_, ?_, ?_⟩
  · show inUnit (nrm (roasCol df) (fdiv a.revenue a.cost))
    rw [hfinR a ha]
    exact hR.1
  · show inUnit (nrm (cost_efficiencyCol df) (finv (fdiv a.cost a.conversions)))
    rw [hfinCE a ha]
    exact hCE.1
  · show inUnit (nrm (conversion_rateCol df) (fdiv a.conversions a.clicks))
    rw [hfinCR a ha]
    exact hCR.1
  · show inUnit (nrm (ctrCol df) (fdiv a.clicks a.impressions))
    rw [hfinT a ha]
    exact hT.1
  · intro hc
    show nrm (roasCol df) (fdiv a.revenue a.cost) = FVal.fin 0
    rw [hfinR a ha]
    exact hR.2 hc
  · intro hc
    show nrm (cost_efficiencyCol df) (finv (fdiv a.cost a.conversions)) = FVal.fin 0
    rw [hfinCE a ha]
    exact hCE.2 hc
  · intro hc
    show nrm (conversion_rateCol df) (fdiv a.conversions a.clicks) = FVal.fin 0
    rw [hfinCR a ha]
    exact hCR.2 hc
  · intro hc
    show nrm (ctrCol df) (fdiv a.clicks a.impressions) = FVal.fin 0
    rw [hfinT a ha]
    exact hT.2 hc

/-- Witness for C4's amended theorem on a concrete two-channel table. -/
theorem c4_witness :
    ∃ rows, normalized_scores [⟨1, 1, 2, 1, 1, 1⟩, ⟨2, 2, 2, 1, 1, 1⟩] = some rows ∧
      ∀ r ∈ rows,
        (inUnit r.nRoas ∧ inUnit r.nCostEff ∧ inUnit r.nConvRate ∧ inUnit r.nCtr)
        ∧ (constCol (roasCol [⟨1, 1, 2, 1, 1, 1⟩, ⟨2, 2, 2, 1, 1, 1⟩]) → r.nRoas = FVal.fin 0)
        ∧ (constCol (cost_efficiencyCol [⟨1, 1, 2, 1, 1, 1⟩, ⟨2, 2, 2, 1, 1, 1⟩]) →
            r.nCostEff = FVal.fin 0)
        ∧ (constCol (conversion_rateCol [⟨1, 1, 2, 1, 1, 1⟩, ⟨2, 2, 2, 1, 1, 1⟩]) →
            r.nConvRate = FVal.fin 0)
        ∧ (constCol (ctrCol [⟨1, 1, 2, 1, 1, 1⟩, ⟨2, 2, 2, 1, 1, 1⟩]) → r.nCtr = FVal.fin 0) :=
  c4_normalized_components_bounds [⟨1, 1, 2, 1, 1, 1⟩, ⟨2, 2, 2, 1, 1, 1⟩]
    (by simp)
    (by
      norm_num [aggCE, aggOne, channelKeys, List.dedup_cons_of_mem,
        List.dedup_cons_of_not_mem, List.filter_cons, List.filter_nil,
        List.forall_mem_cons])

/-- C6 counterexample: with a single channel the scorer raises no
`InsufficientDataError` (no such validation exists): it returns one score row,
with all normalized components 0 and composite efficiency score 0. -/
theorem c6_single_channel_returns_scores_counterexample :
    calculate_efficiency_scores [⟨1, 1, 2, 1, 1, 1⟩]
      = some [⟨1, 1, 2, 1, 1, 1, FVal.fin 2, FVal.fin 1, FVal.fin 1, FVal.fin 1,
          FVal.fin 1, FVal.fin 0⟩] := by
  norm_num [calculate_efficiency_scores, normalized_scores, aggCE, aggOne, channelKeys,
    scoringCols, roasCol, cost_per_conversionCol, conversion_rateCol, ctrCol,
    cost_efficiencyCol, nrm, finVals, qmin, qmax, fdiv, finv, fadd, fscale, toQ, isInfB,
    List.filter_cons, List.filter_nil, List.filterMap_cons, ScoreRow.mk.injEq]

/-- C6 amended: the scorer performs no validation at all: its four weights are
hardcoded constants summing exactly to 1 (so no `ConfigurationError` can
arise), and any input — single-channel inputs included — whose four scoring
columns are free of infinities yields one score row per channel rather than an
`InsufficientDataError`. -/
theorem c6_scorer_never_fails (df : List SRow) (hne : df ≠ [])
    (hfin : (scoringCols df).any isInfB = false) :
    scoringWeights.sum = 1
      ∧ ∃ rows, calculate_efficiency_scores df = some rows
          ∧ rows.length = (aggCE df).length := by
  refine ⟨by norm_num [scoringWeights], ?_⟩
  have hagg : aggCE df ≠ [] := aggCE_ne_nil df hne
  rw [calculate_efficiency_scores, normalized_scores,
    if_neg (by simp [List.isEmpty_iff, hagg]), if_neg (by simp [hfin])]
  refine ⟨_, rfl, ?_⟩
  rw [List.length_map, List.length_zip, List.length_map, min_self]

/-- Witness for C6's amended theorem on a concrete two-channel table. -/
theorem c6_witness :
    scoringWeights.sum = 1
      ∧ ∃ rows, calculate_efficiency_scores [⟨1, 1, 2, 1, 1, 1⟩, ⟨2, 2, 2, 1, 1, 1⟩]
          = some rows
          ∧ rows.length = (aggCE [⟨1, 1, 2, 1, 1, 1⟩, ⟨2, 2, 2, 1, 1, 1⟩]).length :=
  c6_scorer_never_fails [⟨1, 1, 2, 1, 1, 1⟩, ⟨2, 2, 2, 1, 1, 1⟩] (by simp)
    (by
      norm_num [scoringCols, roasCol, cost_per_conversionCol, conversion_rateCol,
        ctrCol, cost_efficiencyCol, aggCE, aggOne, channelKeys, fdiv, finv, toQ,
        isInfB, List.filter_cons, List.filter_nil, List.dedup_cons_of_mem,
        List.dedup_cons_of_not_mem])

/-- C8 counterexample: a channel with zero conversions and positive cost makes
the scorer's `cost_per_conversion` column infinite, and that infinity is
returned in the scorer's final output table (no replacement step exists in
`calculate_efficiency_scores`), contradicting "no NaN or infinite value
appears in the final output". -/
theorem c8_scorer_output_contains_infinity_counterexample :
    (calculate_efficiency_scores [⟨1, 2, 4, 0, 1, 1⟩, ⟨2, 1, 1, 1, 1, 1⟩]).map
        (fun rows => rows.map (fun r => r.cost_per_conversion))
      = some [FVal.pinf, FVal.fin 1]
    ∧ isInfB FVal.pinf = true := by
  refine ⟨?_, rfl⟩
  norm_num [calculate_efficiency_scores, normalized_scores, aggCE, aggOne, channelKeys,
    scoringCols, roasCol, cost_per_conversionCol, conversion_rateCol, ctrCol,
    cost_efficiencyCol, nrm, finVals, qmin, qmax, fdiv, finv, fadd, fscale, toQ, isInfB,
    List.filter_cons, List.filter_nil, List.filterMap_cons, List.dedup_cons_of_mem,
    List.dedup_cons_of_not_mem]

/-- C10: the scorer's per-channel aggregates are recomputed from the rows of
the received table: the `impressions` figure is the row count of the channel's
group — invariant under arbitrary changes to the `impressions` column — while
the other four metrics are column sums, so the `ctr` component divides the
summed clicks by the row count. -/
theorem c10_impressions_is_row_count (df : List SRow) (g : ℚ → ℚ) :
    aggCE (df.map (fun r => { r with impressions := g r.impressions })) = aggCE df
    ∧ ∀ a ∈ aggCE df,
        a.impressions = ((df.filter (fun r => r.channel == a.channel)).length : ℚ)
        ∧ fdiv a.clicks a.impressions
            = fdiv ((df.filter (fun r => r.channel == a.channel)).map
                      (fun r => r.clicks)).sum
                ((df.filter (fun r => r.channel == a.channel)).length : ℚ) := by
  constructor
  · have hkeys : channelKeys (df.map (fun r => { r with impressions := g r.impressions }))
        = channelKeys df := by
      simp [channelKeys, List.map_map, Function.comp_def]
    have hfil : ∀ c : ℕ,
        (df.map (fun r => { r with impressions := g r.impressions })).filter
            (fun r => r.channel == c)
          = (df.filter (fun r => r.channel == c)).map
              (fun r => { r with impressions := g r.impressions }) := by
      intro c
      rw [List.filter_map]
      rfl
    rw [aggCE, aggCE, hkeys]
    apply List.map_congr_left
    intro c _
    rw [aggOne, aggOne, hfil c]
    simp [AggRow.mk.injEq, List.map_map, Function.comp_def]
  · intro a ha
    obtain ⟨c, _, rfl⟩ := List.mem_map.1 ha
    exact ⟨rfl, rfl⟩

/-- Witness for C10 on a concrete one-channel, two-row table with a nontrivial
impressions column. -/
theorem c10_witness :
    aggCE (([⟨1, 2, 3, 1, 5, 7⟩, ⟨1, 1, 1, 1, 1, 9⟩] : List SRow).map
        (fun r => { r with impressions := (fun _ => (0 : ℚ)) r.impressions }))
      = aggCE [⟨1, 2, 3, 1, 5, 7⟩, ⟨1, 1, 1, 1, 1, 9⟩]
    ∧ (aggOne [⟨1, 2, 3, 1, 5, 7⟩, ⟨1, 1, 1, 1, 1, 9⟩] 1).impressions
        = ((([⟨1, 2, 3, 1, 5, 7⟩, ⟨1, 1, 1, 1, 1, 9⟩] : List SRow).filter
            (fun r => r.channel == 1)).length : ℚ) :=
  ⟨(c10_impressions_is_row_count [⟨1, 2, 3, 1, 5, 7⟩, ⟨1, 1, 1, 1, 1, 9⟩]
      (fun _ => 0)).1,
   ((c10_impressions_is_row_count [⟨1, 2, 3, 1, 5, 7⟩, ⟨1, 1, 1, 1, 1, 9⟩]
      (fun _ => 0)).2
      (aggOne [⟨1, 2, 3, 1, 5, 7⟩, ⟨1, 1, 1, 1, 1, 9⟩] 1)
      (by simp [aggCE, channelKeys, List.dedup_cons_of_mem,
        List.dedup_cons_of_not_mem])).1⟩

/-! ## Metric aggregator (`DataProcessor.calculate_channel_metrics`, etl_utils.py 189-219)

A user-journey row carries a non-null impression id (modelled implicitly: each
row is one impression), optional click and conversion ids, a cost, and an
optional conversion value (pandas `count` counts non-null entries and `sum`
skips NaN).  After the derived ratios, line 214 replaces `inf` and `-inf`
with NaN throughout the table; the finite count/sum columns are unaffected,
so the replacement is modelled on the ratio columns.
-/

/-- One row of the user-journey table as the aggregator reads it. -/
structure JRow where
  channel : ℕ
  click_id : Option ℕ
  conversion_id : Option ℕ
  cost : ℚ
  conversion_value : Option ℚ
deriving DecidableEq

/-- One row of the aggregator's output `channel_metrics` table. -/
structure CMRow where
  channel : ℕ
  impressions : ℚ
  clicks : ℚ
  conversions : ℚ
  cost : ℚ
  revenue : ℚ
  ctr : FVal
  conversion_rate : FVal
  cost_per_click : FVal
  cost_per_conversion : FVal
  roas : FVal
  profit : ℚ
deriving DecidableEq

/-- Group keys of `journey_df.groupby('channel_imp')`. -/
def jKeys (df : List JRow) : List ℕ :=
  (df.map (fun r => r.channel)).dedup

/-- `DataProcessor.calculate_channel_metrics` (lines 189-219): per-channel
counts of impression/click/conversion ids, summed cost and conversion value,
the six derived metrics of lines 206-211, and the inf-to-NaN replacement of
line 214. -/
def calculate_channel_metrics (df : List JRow) : List CMRow :=
  (jKeys df).map (fun c =>
    let g := df.filter (fun r => r.channel == c)
    let impressions : ℚ := (g.length : ℚ)
    let clicks : ℚ := ((g.filter (fun r => r.click_id.isSome)).length : ℚ)
    let conversions : ℚ := ((g.filter (fun r => r.conversion_id.isSome)).length : ℚ)
    let cost : ℚ := (g.map (fun r => r.cost)).sum
    let revenue : ℚ := (g.filterMap (fun r => r.conversion_value)).sum
    { channel := c
      impressions := impressions
      clicks := clicks
      conversions := conversions
      cost := cost
      revenue := revenue
      ctr := freplace (fscale 100 (fdiv clicks impressions))
      conversion_rate := freplace (fscale 100 (fdiv conversions clicks))
      cost_per_click := freplace (fdiv cost clicks)
      cost_per_conversion := freplace (fdiv cost conversions)
      roas := freplace (fdiv revenue cost)
      profit := revenue - cost })

theorem freplace_not_inf (x : FVal) : isInfB (freplace x) = false := by
  cases x <;> rfl

theorem freplace_fdiv_zero (a : ℚ) : freplace (fdiv a 0) = FVal.nan := by
  rw [fdiv, if_pos rfl]
  by_cases h1 : 0 < a
  · rw [if_pos h1]; rfl
  · rw [if_neg h1]
    by_cases h2 : a < 0
    · rw [if_pos h2]; rfl
    · rw [if_neg h2]; rfl

theorem freplace_fscale_fdiv_zero (c a : ℚ) :
    freplace (fscale c (fdiv a 0)) = FVal.nan := by
  rw [fdiv, if_pos rfl]
  by_cases h1 : 0 < a
  · rw [if_pos h1]
    simp only [fscale]
    by_cases hc1 : 0 < c
    · rw [if_pos hc1]; rfl
    · rw [if_neg hc1]
      by_cases hc2 : c < 0
      · rw [if_pos hc2]; rfl
      · rw [if_neg hc2]; rfl
  · rw [if_neg h1]
    by_cases h2 : a < 0
    · rw [if_pos h2]
      simp only [fscale]
      by_cases hc1 : 0 < c
      · rw [if_pos hc1]; rfl
      · rw [if_neg hc1]
        by_cases hc2 : c < 0
        · rw [if_pos hc2]; rfl
        · rw [if_neg hc2]; rfl
    · rw [if_neg h2]; rfl

/-- C8 amended: in the metric aggregator every zero-denominator ratio ends as
NaN — pandas' missing-value marker — and no infinity survives the
`replace([inf, -inf], nan)` step; the efficiency scorer, by contrast, applies
no such replacement and can return `+inf` in its `cost_per_conversion`
column for a zero-conversion channel. -/
theorem c8_aggregator_no_infinities (df : List JRow) (row : CMRow)
    (hrow : row ∈ calculate_channel_metrics df) :
    (isInfB row.ctr = false ∧ isInfB row.conversion_rate = false
      ∧ isInfB row.cost_per_click = false ∧ isInfB row.cost_per_conversion = false
      ∧ isInfB row.roas = false)
    ∧ (row.clicks = 0 →
        row.conversion_rate = FVal.nan ∧ row.cost_per_click = FVal.nan)
    ∧ (row.conversions = 0 → row.cost_per_conversion = FVal.nan)
    ∧ (row.cost = 0 → row.roas = FVal.nan) := by
  obtain ⟨c, hc, rfl⟩ := List.mem_map.1 hrow
  refine ⟨⟨freplace_not_inf _, freplace_not_inf _, freplace_not_inf _,
    freplace_not_inf _, freplace_not_inf _⟩, ?_, ?_, ?_⟩
  · intro h
    dsimp only at h ⊢
    rw [h]
    exact ⟨freplace_fscale_fdiv_zero _ _, freplace_fdiv_zero _⟩
  · intro h
    dsimp only at h ⊢
    rw [h]
    exact freplace_fdiv_zero _
  · intro h
    dsimp only at h ⊢
    rw [h]
    exact freplace_fdiv_zero _

/-- Witness for C8's amended theorem: one channel whose single impression has
no click and no conversion, so clicks = conversions = 0. -/
theorem c8_witness :
    (isInfB (FVal.fin 0) = false ∧ isInfB FVal.nan = false
      ∧ isInfB FVal.nan = false ∧ isInfB FVal.nan = false
      ∧ isInfB (FVal.fin 0) = false)
    ∧ ((0 : ℚ) = 0 → FVal.nan = FVal.nan ∧ FVal.nan = FVal.nan)
    ∧ ((0 : ℚ) = 0 → FVal.nan = FVal.nan)
    ∧ ((5 : ℚ) = 0 → FVal.fin 0 = FVal.nan) :=
  c8_aggregator_no_infinities [⟨1, none, none, 5, none⟩]
    ⟨1, 1, 0, 0, 5, 0, FVal.fin 0, FVal.nan, FVal.nan, FVal.nan, FVal.fin 0, -5⟩
    (by
      norm_num [calculate_channel_metrics, jKeys, fdiv, fscale, freplace,
        List.filter_cons, List.filter_nil, List.filterMap_cons, CMRow.mk.injEq])
